import Mathlib

/-!
Verification of the Qte numerical core against its specification.

The HamiltonianBuilder component is the external `qte.quantumho.c`
(function `compute_hamiltonian` and the message handlers around it); the
HermitianEigensolver component is the external `qte.eigencalc.c`.  Both are
embedded shallowly below: machine doubles become exact reals, complex
doubles become `ℂ`, and the loops of the C code become the corresponding
entrywise definitions and list constructions.
-/

open scoped Matrix
open ComplexConjugate

/-! ## HamiltonianBuilder: embedding of compute_hamiltonian (qte.quantumho.c) -/

/-- `compute_fourier_matrix`: F[k][l] = (1/sqrt n) * (cos θ + i sin θ) with
θ = 2πkl/n. -/
noncomputable def fourierF (n : ℕ) : Matrix (Fin n) (Fin n) ℂ :=
  fun k l =>
    ((1 / Real.sqrt n : ℝ) : ℂ) *
      ((Real.cos (2 * Real.pi * (k : ℕ) * (l : ℕ) / n) : ℝ) +
        (Real.sin (2 * Real.pi * (k : ℕ) * (l : ℕ) / n) : ℝ) * Complex.I)

/-- `compute_conjugate_transpose`: Finv[i][j] = conj(F[j][i]). -/
noncomputable def Finv (n : ℕ) : Matrix (Fin n) (Fin n) ℂ :=
  fun i j => conj (fourierF n j i)

/-- The momentum-impulse diagonal: PImpulse[i] = i. -/
def PImpulse (n : ℕ) (i : Fin n) : ℝ := (i : ℕ)

/-- `multiply_diag_matrix(PImpulse, Finv, P_temp)`: P_temp[i][j] = D[i]*Finv[i][j]. -/
noncomputable def P_temp (n : ℕ) : Matrix (Fin n) (Fin n) ℂ :=
  fun i j => (PImpulse n i : ℝ) * Finv n i j

/-- `multiply_complex_matrices(F, P_temp, P)`: P = F * (diag(PImpulse) * Finv). -/
noncomputable def Pmat (n : ℕ) : Matrix (Fin n) (Fin n) ℂ :=
  fourierF n * P_temp n

/-- `multiply_complex_matrices(P, P, P2)`: P² = P * P. -/
noncomputable def P2mat (n : ℕ) : Matrix (Fin n) (Fin n) ℂ :=
  Pmat n * Pmat n

/-- Q_diag[i] = a * ( -((n - 1) / 2.0) + i ). -/
noncomputable def Q_diag (n : ℕ) (a : ℝ) (i : Fin n) : ℝ :=
  a * (-(((n : ℝ) - 1) / 2) + (i : ℕ))

/-- The unrounded Hamiltonian entry: val = 0.5*(P2[i][j] + qterm) where
qterm is Q_diag[i]² on the diagonal and 0 elsewhere. -/
noncomputable def Hraw (n : ℕ) (a : ℝ) : Matrix (Fin n) (Fin n) ℂ :=
  fun i j =>
    (1 / 2 : ℂ) *
      (P2mat n i j + if i = j then ((Q_diag n a i * Q_diag n a i : ℝ) : ℂ) else 0)

/-- C's `round`: round to nearest integer, halfway cases away from zero. -/
noncomputable def cround (x : ℝ) : ℤ :=
  if 0 ≤ x then ⌊x + 1 / 2⌋ else -⌊-x + 1 / 2⌋

/-- `round5`: round a double to 5 decimal places. -/
noncomputable def round5 (x : ℝ) : ℝ :=
  (cround (x * 100000) : ℝ) / 100000

/-- The returned Hamiltonian: H[i][j] = round5(Re val) + i*round5(Im val). -/
noncomputable def hamiltonianH (n : ℕ) (a : ℝ) : Matrix (Fin n) (Fin n) ℂ :=
  fun i j => ⟨round5 (Hraw n a i j).re, round5 (Hraw n a i j).im⟩

/-! ## Structural lemmas for the builder -/

lemma Finv_eq_conjTranspose (n : ℕ) : Finv n = (fourierF n)ᴴ := rfl

lemma P_temp_eq (n : ℕ) :
    P_temp n = Matrix.diagonal (fun i : Fin n => ((i : ℕ) : ℂ)) * Finv n := by
  ext i j
  simp [P_temp, PImpulse, Matrix.diagonal_mul]

lemma diag_impulse_isHermitian (n : ℕ) :
    (Matrix.diagonal (fun i : Fin n => ((i : ℕ) : ℂ))).IsHermitian := by
  show (Matrix.diagonal _)ᴴ = _
  ext i j
  by_cases hij : i = j
  · subst hij
    simp [Matrix.conjTranspose_apply]
  · simp [Matrix.conjTranspose_apply, Matrix.diagonal_apply_ne _ hij,
      Matrix.diagonal_apply_ne _ (Ne.symm hij)]

lemma Pmat_isHermitian (n : ℕ) : (Pmat n).IsHermitian := by
  have h : Pmat n =
      fourierF n * Matrix.diagonal (fun i : Fin n => ((i : ℕ) : ℂ)) * (fourierF n)ᴴ := by
    rw [Pmat, P_temp_eq, Finv_eq_conjTranspose, Matrix.mul_assoc]
  rw [h]
  exact Matrix.isHermitian_mul_mul_conjTranspose _ (diag_impulse_isHermitian n)

lemma P2mat_isHermitian (n : ℕ) : (P2mat n).IsHermitian := by
  have h := Pmat_isHermitian n
  show (P2mat n)ᴴ = P2mat n
  rw [P2mat, Matrix.conjTranspose_mul, h.eq]

lemma P2mat_entry_conj (n : ℕ) (i j : Fin n) :
    P2mat n i j = conj (P2mat n j i) := by
  have h := P2mat_isHermitian n
  have h2 : (P2mat n)ᴴ i j = P2mat n i j := by rw [h.eq]
  rw [← h2, Matrix.conjTranspose_apply]
  rfl

lemma Hraw_hermitian_entry (n : ℕ) (a : ℝ) (i j : Fin n) :
    Hraw n a i j = conj (Hraw n a j i) := by
  rw [Hraw, Hraw]
  simp only [map_mul, map_add, apply_ite (conj : ℂ → ℂ), map_zero, Complex.conj_ofReal]
  rw [← P2mat_entry_conj]
  have hconj : (conj (1 / 2 : ℂ)) = (1 / 2 : ℂ) := by
    rw [show (1 / 2 : ℂ) = ((1 / 2 : ℝ) : ℂ) by norm_num]
    exact Complex.conj_ofReal _
  rw [hconj]
  congr 1
  congr 1
  by_cases hij : i = j
  · subst hij
    simp
  · rw [if_neg hij, if_neg (fun h => hij h.symm)]

/-! ## Rounding lemmas -/

lemma cround_neg (x : ℝ) : cround (-x) = -cround x := by
  rcases lt_trichotomy x 0 with hx | hx | hx
  · rw [cround, cround, if_pos (by linarith), if_neg (not_le.mpr hx), neg_neg]
  · subst hx
    norm_num [cround]
  · rw [cround, cround, if_neg (by simpa using hx), if_pos hx.le, neg_neg]

lemma round5_neg (x : ℝ) : round5 (-x) = -round5 x := by
  rw [round5, round5, neg_mul, cround_neg, Int.cast_neg, neg_div]

/-! ## C1 -/

/-- C1: for every n ≥ 2 and real a, the Hamiltonian produced by
compute_hamiltonian is Hermitian (H[i][j] = conj(H[j][i]) for all i, j),
both before and after the 5-decimal rounding of the real and imaginary
parts of every entry. -/
theorem C1_hamiltonian_hermitian (n : ℕ) (a : ℝ) (_h : 2 ≤ n) :
    (∀ i j : Fin n, Hraw n a i j = conj (Hraw n a j i)) ∧
    (∀ i j : Fin n, hamiltonianH n a i j = conj (hamiltonianH n a j i)) := by
  refine ⟨Hraw_hermitian_entry n a, fun i j => ?_⟩
  have hij := Hraw_hermitian_entry n a i j
  have hre : (Hraw n a i j).re = (Hraw n a j i).re := by
    rw [hij, Complex.conj_re]
  have him : (Hraw n a i j).im = -(Hraw n a j i).im := by
    rw [hij, Complex.conj_im]
  apply Complex.ext
  · show round5 (Hraw n a i j).re = (conj (hamiltonianH n a j i)).re
    rw [Complex.conj_re, hre]
    rfl
  · show round5 (Hraw n a i j).im = (conj (hamiltonianH n a j i)).im
    rw [Complex.conj_im, him, round5_neg]
    rfl

/-- Witness for C1 at n = 2, a = 1. -/
theorem C1_hamiltonian_hermitian_witness :
    (2 : ℕ) ≤ 2 ∧
    (∀ i j : Fin 2, hamiltonianH 2 1 i j = conj (hamiltonianH 2 1 j i)) :=
  ⟨le_refl 2, (C1_hamiltonian_hermitian 2 1 (le_refl 2)).2⟩

/-! ## C2 -/

/-- C2: the momentum operator is built as P = F * (diag(PImpulse) * Finv),
so P[i][j] = ∑ k, F[i][k] * k * conj(F[j][k]); and the Fourier matrix
satisfies F[k][l] = n^(-1/2) * exp(2πi k l / n). -/
theorem C2_momentum_operator (n : ℕ) (_h : 2 ≤ n) :
    (∀ i j : Fin n, Pmat n i j =
      ∑ k : Fin n, fourierF n i k * ((k : ℕ) : ℂ) * conj (fourierF n j k)) ∧
    (∀ k l : Fin n, fourierF n k l =
      ((((n : ℝ) ^ (-(1 / 2) : ℝ)) : ℝ) : ℂ) *
        Complex.exp (((2 * Real.pi * (k : ℕ) * (l : ℕ) / n : ℝ) : ℂ) * Complex.I)) := by
  constructor
  · intro i j
    rw [Pmat, Matrix.mul_apply]
    apply Finset.sum_congr rfl
    intro k _
    simp only [P_temp, Finv, PImpulse]
    push_cast
    ring
  · intro k l
    rw [fourierF]
    rw [Complex.exp_mul_I]
    rw [← Complex.ofReal_cos, ← Complex.ofReal_sin]
    congr 2
    rw [Real.rpow_neg (Nat.cast_nonneg n), ← Real.sqrt_eq_rpow, one_div]

/-- Witness for C2 at n = 2. -/
theorem C2_momentum_operator_witness :
    (2 : ℕ) ≤ 2 ∧
    (∀ i j : Fin 2, Pmat 2 i j =
      ∑ k : Fin 2, fourierF 2 i k * ((k : ℕ) : ℂ) * conj (fourierF 2 j k)) :=
  ⟨le_refl 2, (C2_momentum_operator 2 (le_refl 2)).1⟩

/-! ## C3 -/

/-- C3: the position diagonal used to build H is Q[i] = a * (-(n-1)/2 + i)
(the factor a multiplies the whole expression, including the index term i),
and it enters the Hamiltonian diagonal as H[i][i] = 0.5*(P²[i][i] + Q[i]²). -/
theorem C3_position_diagonal (n : ℕ) (a : ℝ) (_h : 2 ≤ n) :
    (∀ i : Fin n, Q_diag n a i = a * (-(((n : ℝ) - 1) / 2) + ((i : ℕ) : ℝ))) ∧
    (∀ i : Fin n, Hraw n a i i =
      (1 / 2 : ℂ) *
        (P2mat n i i + (((a * (-(((n : ℝ) - 1) / 2) + ((i : ℕ) : ℝ))) ^ 2 : ℝ) : ℂ))) := by
  refine ⟨fun i => rfl, fun i => ?_⟩
  rw [Hraw, if_pos rfl]
  congr 2
  rw [Q_diag, sq]

/-- Witness for C3 at n = 2, a = 1. -/
theorem C3_position_diagonal_witness :
    (2 : ℕ) ≤ 2 ∧
    (∀ i : Fin 2, Q_diag 2 1 i = 1 * (-(((2 : ℕ) : ℝ) - 1) / 2 + ((i : ℕ) : ℝ))) := by
  refine ⟨le_refl 2, fun i => ?_⟩
  have h := (C3_position_diagonal 2 1 (le_refl 2)).1 i
  rw [h]
  norm_num

/-! ## Output wire format: embedding of qte_quantumho_bang -/

/-- The flat output list built by `qte_quantumho_bang`: for each i, j in row-major
order, the atoms at 2*(i*n+j) and 2*(i*n+j)+1 are Re H[i][j] and Im H[i][j]. -/
noncomputable def qteOutList (n : ℕ) (a : ℝ) : List ℝ :=
  (List.finRange n).flatMap fun i =>
    (List.finRange n).flatMap fun j =>
      [(hamiltonianH n a i j).re, (hamiltonianH n a i j).im]

lemma flatMap_const_length {α β : Type} (l : List α) (f : α → List β) (L : ℕ)
    (hL : ∀ a, (f a).length = L) : (l.flatMap f).length = l.length * L := by
  induction l with
  | nil => simp
  | cons a t ih =>
      rw [List.flatMap_cons, List.length_append, hL, ih, List.length_cons]
      ring

lemma flatMap_getElem_const {α β : Type} (l : List α) (f : α → List β) (L : ℕ)
    (hL : ∀ a, (f a).length = L) (i r : ℕ) (hi : i < l.length) (hr : r < L) :
    ∀ (hidx : i * L + r < (l.flatMap f).length)
      (hr2 : r < (f (l.get ⟨i, hi⟩)).length),
      (l.flatMap f)[i * L + r] = (f (l.get ⟨i, hi⟩))[r] := by
  induction l generalizing i with
  | nil => exact absurd hi (Nat.not_lt_zero i)
  | cons a t ih =>
      intro hidx hr2
      cases i with
      | zero =>
          have hra : r < (f a).length := by rw [hL]; exact hr
          have h0 : (0 : ℕ) * L + r = r := by ring
          simp only [List.flatMap_cons, h0]
          rw [List.getElem_append_left hra]
          rfl
      | succ i' =>
          have hi' : i' < t.length := Nat.lt_of_succ_lt_succ hi
          simp only [List.flatMap_cons]
          have hge : (f a).length ≤ (i' + 1) * L + r := by
            rw [hL]
            calc L ≤ (i' + 1) * L := Nat.le_mul_of_pos_left L (Nat.succ_pos i')
            _ ≤ (i' + 1) * L + r := Nat.le_add_right _ _
          have hlt : (i' + 1) * L + r - (f a).length < (t.flatMap f).length := by
            rw [hL, flatMap_const_length t f L hL]
            have : (i' + 1) * L + r - L = i' * L + r := by
              rw [Nat.add_mul, Nat.one_mul]
              omega
            rw [this]
            calc i' * L + r < i' * L + L := Nat.add_lt_add_left hr _
            _ = (i' + 1) * L := by ring
            _ ≤ t.length * L := Nat.mul_le_mul_right L hi'
          rw [List.getElem_append_right hge]
          have heq : (i' + 1) * L + r - (f a).length = i' * L + r := by
            rw [hL, Nat.add_mul, Nat.one_mul]
            omega
          have hmain := ih i' hi'
            (by rw [← heq]; exact hlt)
            (by
              have hc : t.get ⟨i', hi'⟩ = (a :: t).get ⟨i' + 1, hi⟩ := rfl
              rw [hc]; exact hr2)
          have hcast : ((a :: t).get ⟨i' + 1, hi⟩) = t.get ⟨i', hi'⟩ := rfl
          simp only [heq, hcast]
          exact hmain

lemma finRange_get (n : ℕ) (i : Fin n) (hi : (i : ℕ) < (List.finRange n).length) :
    (List.finRange n).get ⟨(i : ℕ), hi⟩ = i := by
  rw [List.get_eq_getElem, List.getElem_finRange]
  apply Fin.ext
  simp

lemma inner_row_length (n : ℕ) (a : ℝ) (i : Fin n) :
    ((List.finRange n).flatMap fun j =>
      [(hamiltonianH n a i j).re, (hamiltonianH n a i j).im]).length = 2 * n := by
  rw [flatMap_const_length (List.finRange n)
    (fun j => [(hamiltonianH n a i j).re, (hamiltonianH n a i j).im]) 2 (fun j => rfl),
    List.length_finRange]
  ring

lemma qteOutList_length (n : ℕ) (a : ℝ) : (qteOutList n a).length = 2 * n * n := by
  rw [qteOutList, flatMap_const_length _ _ (2 * n) (inner_row_length n a),
    List.length_finRange]
  ring

lemma qteOutList_re (n : ℕ) (a : ℝ) (i j : Fin n)
    (h1 : 2 * ((i : ℕ) * n + (j : ℕ)) < (qteOutList n a).length) :
    (qteOutList n a)[2 * ((i : ℕ) * n + (j : ℕ))] = (hamiltonianH n a i j).re := by
  have hi : (i : ℕ) < (List.finRange n).length := by
    rw [List.length_finRange]; exact i.isLt
  have hj : (j : ℕ) < (List.finRange n).length := by
    rw [List.length_finRange]; exact j.isLt
  have hr : (j : ℕ) * 2 + 0 < 2 * n := by
    have := j.isLt
    omega
  have e1 : 2 * ((i : ℕ) * n + (j : ℕ)) = (i : ℕ) * (2 * n) + ((j : ℕ) * 2 + 0) := by
    ring
  simp only [e1] at h1 ⊢
  simp only [qteOutList] at h1 ⊢
  rw [flatMap_getElem_const (List.finRange n) _ (2 * n) (inner_row_length n a)
    (i : ℕ) ((j : ℕ) * 2 + 0) hi hr h1
    (by rw [inner_row_length]; exact hr)]
  simp only [finRange_get]
  rw [flatMap_getElem_const (List.finRange n)
    (fun j0 => [(hamiltonianH n a i j0).re, (hamiltonianH n a i j0).im]) 2 (fun j0 => rfl)
    (j : ℕ) 0 hj (by omega)
    (by rw [inner_row_length]; exact hr)
    (by exact Nat.zero_lt_two)]
  simp only [finRange_get]
  rfl

lemma qteOutList_im (n : ℕ) (a : ℝ) (i j : Fin n)
    (h2 : 2 * ((i : ℕ) * n + (j : ℕ)) + 1 < (qteOutList n a).length) :
    (qteOutList n a)[2 * ((i : ℕ) * n + (j : ℕ)) + 1] = (hamiltonianH n a i j).im := by
  have hi : (i : ℕ) < (List.finRange n).length := by
    rw [List.length_finRange]; exact i.isLt
  have hj : (j : ℕ) < (List.finRange n).length := by
    rw [List.length_finRange]; exact j.isLt
  have hr : (j : ℕ) * 2 + 1 < 2 * n := by
    have := j.isLt
    omega
  have e1 : 2 * ((i : ℕ) * n + (j : ℕ)) + 1 = (i : ℕ) * (2 * n) + ((j : ℕ) * 2 + 1) := by
    ring
  simp only [e1] at h2 ⊢
  simp only [qteOutList] at h2 ⊢
  rw [flatMap_getElem_const (List.finRange n) _ (2 * n) (inner_row_length n a)
    (i : ℕ) ((j : ℕ) * 2 + 1) hi hr h2
    (by rw [inner_row_length]; exact hr)]
  simp only [finRange_get]
  rw [flatMap_getElem_const (List.finRange n)
    (fun j0 => [(hamiltonianH n a i j0).re, (hamiltonianH n a i j0).im]) 2 (fun j0 => rfl)
    (j : ℕ) 1 hj (by omega)
    (by rw [inner_row_length]; exact hr)
    (by exact Nat.one_lt_two)]
  simp only [finRange_get]
  rfl

/-! ## C4 -/

lemma round5_mul_100000 (x : ℝ) :
    round5 x * 100000 = ((cround (x * 100000) : ℤ) : ℝ) := by
  rw [round5, div_mul_cancel₀]
  norm_num

/-- C4: every returned entry of the Hamiltonian has both parts rounded to 5
decimal places (x maps to round(x*10^5)/10^5), and consequently every
component v of the emitted flat list satisfies that v*10^5 is an integer. -/
theorem C4_five_decimal_rounding (n : ℕ) (a : ℝ) :
    (∀ i j : Fin n, hamiltonianH n a i j =
      Complex.mk (round5 (Hraw n a i j).re) (round5 (Hraw n a i j).im)) ∧
    (∀ v ∈ qteOutList n a, ∃ k : ℤ, v * 100000 = (k : ℝ)) := by
  refine ⟨fun i j => rfl, fun v hv => ?_⟩
  rw [qteOutList] at hv
  simp only [List.mem_flatMap, List.mem_cons, List.mem_singleton] at hv
  obtain ⟨i, -, j, -, hv⟩ := hv
  rcases hv with hv | hv | hfalse
  · subst hv
    exact ⟨cround ((Hraw n a i j).re * 100000), round5_mul_100000 _⟩
  · subst hv
    exact ⟨cround ((Hraw n a i j).im * 100000), round5_mul_100000 _⟩
  · exact absurd hfalse (List.not_mem_nil v)

/-! ## C5 -/

/-- C5: the emitted output is a flat list of exactly 2*n*n reals, row-major
with interleaved real/imaginary pairs: entry (i,j) contributes its real part
at flat index 2*(i*n+j) and its imaginary part at flat index 2*(i*n+j)+1. -/
theorem C5_flat_wire_format (n : ℕ) (a : ℝ) (_h : 2 ≤ n) :
    ((qteOutList n a).length = 2 * n * n) ∧
    (∀ i j : Fin n,
      ∀ (h1 : 2 * ((i : ℕ) * n + (j : ℕ)) < (qteOutList n a).length)
        (h2 : 2 * ((i : ℕ) * n + (j : ℕ)) + 1 < (qteOutList n a).length),
        (qteOutList n a)[2 * ((i : ℕ) * n + (j : ℕ))] = (hamiltonianH n a i j).re ∧
        (qteOutList n a)[2 * ((i : ℕ) * n + (j : ℕ)) + 1] = (hamiltonianH n a i j).im) :=
  ⟨qteOutList_length n a, fun i j h1 h2 =>
    ⟨qteOutList_re n a i j h1, qteOutList_im n a i j h2⟩⟩

/-- Witness for C5 at n = 2, a = 1. -/
theorem C5_flat_wire_format_witness :
    (2 : ℕ) ≤ 2 ∧ (qteOutList 2 1).length = 2 * 2 * 2 :=
  ⟨le_refl 2, (C5_flat_wire_format 2 1 (le_refl 2)).1⟩

/-! ## Constructor and bang handler of qte.quantumho (for C9) -/

/-- State of one qte.quantumho instance: dimension n (a C long) and
potential parameter a. -/
structure BuilderState where
  n : ℤ
  a : ℝ

/-- `qte_quantumho_new`: defaults n = 8 and a = 1.0, then stores whatever
arguments were supplied, with no validation of n. -/
def qteQuantumhoNew (nArg : Option ℤ) (aArg : Option ℝ) : BuilderState :=
  { n := nArg.getD 8, a := aArg.getD 1 }

/-- `qte_quantumho_bang`: computes the Hamiltonian for the stored n and a and
emits the flat list (the C loops run for indices 0 ≤ i < n, so a long n ≤ 0
yields the empty iteration, i.e. toNat). Allocation is modelled as
succeeding. -/
noncomputable def qteQuantumhoBang (st : BuilderState) : List ℝ :=
  qteOutList st.n.toNat st.a

/-- C9 counterexample: the constructor accepts dimension n = 1 (< 2) without
rejection, and bang then builds and emits a 1×1 Hamiltonian (a flat list of
2 components), contradicting the claim that n < 2 is rejected before any
computation and that nothing is emitted. -/
theorem C9_counterexample :
    qteQuantumhoNew (some 1) (some 1) = { n := 1, a := 1 } ∧
    (qteQuantumhoBang { n := 1, a := 1 }).length = 2 := by
  constructor
  · rfl
  · rw [qteQuantumhoBang]
    show (qteOutList 1 1).length = 2
    rw [qteOutList_length]

/-- C9 amended: the builder performs no validation of the dimension: the
constructor stores any supplied n unchecked, and for every stored n ≥ 0 the
bang handler computes and emits a flat list of 2*n*n components (so n = 0 and
n = 1 are processed like any other dimension rather than rejected). -/
theorem C9_no_dimension_validation (nArg : ℤ) (aArg : ℝ) (_hn : 0 ≤ nArg) :
    qteQuantumhoNew (some nArg) (some aArg) = { n := nArg, a := aArg } ∧
    (qteQuantumhoBang { n := nArg, a := aArg }).length = 2 * nArg.toNat * nArg.toNat := by
  exact ⟨rfl, qteOutList_length _ _⟩

/-- Witness for the amended C9 at n = 1. -/
theorem C9_no_dimension_validation_witness :
    (0 : ℤ) ≤ 1 ∧
    (qteQuantumhoBang { n := 1, a := 1 }).length = 2 * (1 : ℤ).toNat * (1 : ℤ).toNat :=
  ⟨by norm_num, (C9_no_dimension_validation 1 1 (by norm_num)).2⟩

/-! ## HermitianEigensolver: embedding of qte.eigencalc.c -/

/-- State of one qte.eigencalc instance: dimension n (a C long) and the
stored row-major complex matrix, if any (x->matrix, NULL when absent). -/
structure SolverState where
  n : ℤ
  matrix : Option (List ℂ)

/-- The error conditions reported through object_error. -/
inductive SolverErr where
  | wrongCount : SolverErr
  | allocFail : SolverErr
  | noMatrix : SolverErr
  | queryFail : ℤ → SolverErr
  | solveFail : ℤ → SolverErr
  | dimNonpos : SolverErr

/-- `qte_eigencalc_new`: default n = 3; a first argument replaces it only
when positive; no matrix is stored. -/
def qteEigencalcNew (nArg : Option ℤ) : SolverState :=
  { n := match nArg with
      | some tmp => if 0 < tmp then tmp else 3
      | none => 3,
    matrix := none }

/-- `qte_eigencalc_dim`: n ≤ 0 is an error with no state change; n equal to
the current dimension returns before touching anything; otherwise the
dimension is replaced and the stored matrix freed. -/
def qteEigencalcDim (st : SolverState) (n : ℤ) : SolverState × Option SolverErr :=
  if n ≤ 0 then (st, some SolverErr.dimNonpos)
  else if st.n = n then (st, none)
  else ({ n := n, matrix := none }, none)

/-- The interleaved (re, im) pairs of the input list, as complex numbers:
matrix[i] = (argv[2i], argv[2i+1]). -/
def pairUp : List ℝ → List ℂ
  | re :: im :: rest => Complex.mk re im :: pairUp rest
  | _ => []

/-- `qte_eigencalc_list` (accept): a list whose element count differs from
2*n*n is rejected with nothing touched; otherwise the old matrix is freed
first and a new buffer is allocated (modelled by the `allocOk` oracle): on
allocation failure x->matrix is left NULL, on success the parsed matrix is
stored. -/
def qteEigencalcList (st : SolverState) (args : List ℝ) (allocOk : Bool) :
    SolverState × Option SolverErr :=
  if (args.length : ℤ) ≠ 2 * st.n * st.n then
    (st, some SolverErr.wrongCount)
  else if allocOk then
    ({ st with matrix := some (pairUp args) }, none)
  else
    ({ st with matrix := none }, some SolverErr.allocFail)

/-- The row-major to column-major conversion in `qte_eigencalc_bang`:
A[j*n + i] = matrix[i*n + j]. -/
def toColMajor (n : ℕ) (m : List ℂ) : List ℂ :=
  (List.finRange n).flatMap fun j =>
    (List.finRange n).map fun i => m.getD ((i : ℕ) * n + (j : ℕ)) 0

/-- Result of the LAPACK `zheev_` primitive (modelled abstractly): status
code info, eigenvalue buffer w, and the eigenvector-overwritten matrix A. -/
structure ZheevResult where
  info : ℤ
  w : List ℝ
  evec : List ℂ

/-- lwork = (int)(work_query.r) + 1, clamped to at least 1 (the C cast to
int truncates toward zero). -/
noncomputable def lworkOf (wr : ℝ) : ℤ :=
  let l := (if 0 ≤ wr then ⌊wr⌋ else -⌊-wr⌋) + 1
  if l < 1 then 1 else l

/-- The observable result of one bang: the instance state afterwards, what
was emitted on the eigenvalue and eigenvector outlets (none = nothing), and
the error reported, if any. -/
structure BangResult where
  state : SolverState
  evals : Option (List ℝ)
  evecs : Option (List ℝ)
  err : Option SolverErr

/-- `qte_eigencalc_bang` (decompose): errors when no matrix is stored;
otherwise converts to column-major, performs the zheev workspace query and
the zheev solve (both modelled as arbitrary pure functions of their inputs,
per the spec's deterministic-primitive contract), failing with the stage and
status on nonzero info; on success emits the n eigenvalues and the 2*n*n
column-major interleaved eigenvector components.  The stored matrix is never
written to. -/
noncomputable def qteEigencalcBang
    (query : ℤ → List ℂ → ℤ × ℝ)
    (solve : ℤ → List ℂ → ℤ → ZheevResult)
    (st : SolverState) : BangResult :=
  match st.matrix with
  | none => ⟨st, none, none, some SolverErr.noMatrix⟩
  | some m =>
      let n := st.n.toNat
      let A := toColMajor n m
      let q := query st.n A
      if q.1 ≠ 0 then ⟨st, none, none, some (SolverErr.queryFail q.1)⟩
      else
        let r := solve st.n A (lworkOf q.2)
        if r.info ≠ 0 then ⟨st, none, none, some (SolverErr.solveFail r.info)⟩
        else
          ⟨st,
            some ((List.finRange n).map fun i => r.w.getD (i : ℕ) 0),
            some ((List.finRange n).flatMap fun j =>
              (List.finRange n).flatMap fun i =>
                [(r.evec.getD ((j : ℕ) * n + (i : ℕ)) 0).re,
                 (r.evec.getD ((j : ℕ) * n + (i : ℕ)) 0).im]),
            none⟩

/-! ## C6 -/

/-- C6 counterexample: a solver in the Ready state (n = 1, matrix [7]) that
receives a correctly sized list while buffer allocation fails ends with no
stored matrix at all: the previously stored matrix is not left untouched,
contradicting the claim that accept is atomic on every failure. -/
theorem C6_counterexample :
    (qteEigencalcList { n := 1, matrix := some [Complex.mk 7 0] } [1, 0] false).1.matrix
      = none ∧
    (qteEigencalcList { n := 1, matrix := some [Complex.mk 7 0] } [1, 0] false).2
      = some SolverErr.allocFail := by
  constructor <;> rfl

/-- C6 amended: accept is atomic on a wire-format mismatch (element count ≠
2*n*n: nothing is stored and the full prior state is kept), and on success
the parsed matrix wholly replaces the old one; but on buffer allocation
failure the previously stored matrix has already been freed, so the solver
is left with no stored matrix (Empty), not with its old matrix. -/
theorem C6_accept_failure_modes (st : SolverState) (args : List ℝ) (allocOk : Bool) :
    ((args.length : ℤ) ≠ 2 * st.n * st.n →
      qteEigencalcList st args allocOk = (st, some SolverErr.wrongCount)) ∧
    ((args.length : ℤ) = 2 * st.n * st.n → allocOk = false →
      qteEigencalcList st args allocOk =
        ({ st with matrix := none }, some SolverErr.allocFail)) ∧
    ((args.length : ℤ) = 2 * st.n * st.n → allocOk = true →
      qteEigencalcList st args allocOk =
        ({ st with matrix := some (pairUp args) }, none)) := by
  refine ⟨fun h => ?_, fun h ha => ?_, fun h ha => ?_⟩
  · rw [qteEigencalcList, if_pos h]
  · subst ha
    rw [qteEigencalcList, if_neg (by rw [h]; exact fun hc => hc rfl)]
    rfl
  · subst ha
    rw [qteEigencalcList, if_neg (by rw [h]; exact fun hc => hc rfl)]
    rfl

/-- Witness for the amended C6: one concrete instance per branch, on the
Ready solver (n = 1, matrix [7]). -/
theorem C6_accept_failure_modes_witness :
    (qteEigencalcList { n := 1, matrix := some [Complex.mk 7 0] } [1] true
      = ({ n := 1, matrix := some [Complex.mk 7 0] }, some SolverErr.wrongCount)) ∧
    (qteEigencalcList { n := 1, matrix := some [Complex.mk 7 0] } [1, 0] false
      = ({ n := 1, matrix := none }, some SolverErr.allocFail)) ∧
    (qteEigencalcList { n := 1, matrix := some [Complex.mk 7 0] } [1, 0] true
      = ({ n := 1, matrix := some (pairUp [1, 0]) }, none)) :=
  ⟨(C6_accept_failure_modes { n := 1, matrix := some [Complex.mk 7 0] } [1] true).1
      (by norm_num),
   (C6_accept_failure_modes { n := 1, matrix := some [Complex.mk 7 0] } [1, 0] false).2.1
      (by norm_num) rfl,
   (C6_accept_failure_modes { n := 1, matrix := some [Complex.mk 7 0] } [1, 0] true).2.2
      (by norm_num) rfl⟩

/-! ## C7 -/

/-- C7: decompose on a solver with no stored matrix reports the no-matrix
error, emits nothing on either outlet, and leaves the state unchanged (still
Empty). -/
theorem C7_decompose_empty (query : ℤ → List ℂ → ℤ × ℝ)
    (solve : ℤ → List ℂ → ℤ → ZheevResult) (st : SolverState)
    (h : st.matrix = none) :
    qteEigencalcBang query solve st =
      ⟨st, none, none, some SolverErr.noMatrix⟩ := by
  rw [qteEigencalcBang, h]

/-- Witness for C7 on a freshly constructed solver. -/
theorem C7_decompose_empty_witness :
    (qteEigencalcNew none).matrix = none ∧
    qteEigencalcBang (fun _ _ => (0, 0)) (fun _ _ _ => ⟨0, [], []⟩) (qteEigencalcNew none)
      = ⟨qteEigencalcNew none, none, none, some SolverErr.noMatrix⟩ :=
  ⟨rfl, C7_decompose_empty _ _ _ rfl⟩

/-! ## C8 -/

lemma qteEigencalcBang_state (query : ℤ → List ℂ → ℤ × ℝ)
    (solve : ℤ → List ℂ → ℤ → ZheevResult) (st : SolverState) :
    (qteEigencalcBang query solve st).state = st := by
  rw [qteEigencalcBang]
  cases st.matrix with
  | none => rfl
  | some m =>
      dsimp only
      split
      · rfl
      · split
        · rfl
        · rfl

/-- C8: decompose does not mutate the stored state (dimension and matrix are
exactly as before the call), and therefore a second decompose on the same
stored matrix with no intervening accept produces identical eigenvalue and
eigenvector outputs. The zheev workspace query and solve are modelled as
arbitrary pure functions of their inputs, matching the spec's
deterministic-primitive contract. -/
theorem C8_decompose_idempotent (query : ℤ → List ℂ → ℤ × ℝ)
    (solve : ℤ → List ℂ → ℤ → ZheevResult) (st : SolverState) (m : List ℂ)
    (_h : st.matrix = some m) :
    (qteEigencalcBang query solve st).state = st ∧
    (qteEigencalcBang query solve (qteEigencalcBang query solve st).state).evals
      = (qteEigencalcBang query solve st).evals ∧
    (qteEigencalcBang query solve (qteEigencalcBang query solve st).state).evecs
      = (qteEigencalcBang query solve st).evecs := by
  have hs := qteEigencalcBang_state query solve st
  exact ⟨hs, by rw [hs], by rw [hs]⟩

/-- Witness for C8 on a concrete Ready solver and concrete primitive
functions. -/
theorem C8_decompose_idempotent_witness :
    ({ n := 1, matrix := some [Complex.mk 1 0] } : SolverState).matrix
        = some [Complex.mk 1 0] ∧
    (qteEigencalcBang (fun _ _ => (0, 0)) (fun _ _ _ => ⟨0, [1], [Complex.mk 1 0]⟩)
        { n := 1, matrix := some [Complex.mk 1 0] }).state
      = { n := 1, matrix := some [Complex.mk 1 0] } :=
  ⟨rfl, (C8_decompose_idempotent (fun _ _ => (0, 0))
    (fun _ _ _ => ⟨0, [1], [Complex.mk 1 0]⟩)
    { n := 1, matrix := some [Complex.mk 1 0] } [Complex.mk 1 0] rfl).1⟩

/-! ## C10 -/

/-- C10: a dim message equal to the current dimension is a no-op (the stored
matrix is retained); a different positive dimension replaces n and discards
the stored matrix; a non-positive dimension is rejected with no state
change. -/
theorem C10_dim_change (st : SolverState) (n : ℤ) :
    (0 < n → st.n = n → qteEigencalcDim st n = (st, none)) ∧
    (0 < n → st.n ≠ n →
      qteEigencalcDim st n = ({ n := n, matrix := none }, none)) ∧
    (n ≤ 0 → qteEigencalcDim st n = (st, some SolverErr.dimNonpos)) := by
  refine ⟨fun hpos heq => ?_, fun hpos hne => ?_, fun hle => ?_⟩
  · rw [qteEigencalcDim, if_neg (not_le.mpr hpos), if_pos heq]
  · rw [qteEigencalcDim, if_neg (not_le.mpr hpos), if_neg hne]
  · rw [qteEigencalcDim, if_pos hle]

/-- Witness for C10: on a Ready solver with n = 3, dim 3 retains the matrix,
dim 4 clears it, dim 0 errors with no state change. -/
theorem C10_dim_change_witness :
    (qteEigencalcDim { n := 3, matrix := some [Complex.mk 1 0] } 3
      = ({ n := 3, matrix := some [Complex.mk 1 0] }, none)) ∧
    (qteEigencalcDim { n := 3, matrix := some [Complex.mk 1 0] } 4
      = ({ n := 4, matrix := none }, none)) ∧
    (qteEigencalcDim { n := 3, matrix := some [Complex.mk 1 0] } 0
      = ({ n := 3, matrix := some [Complex.mk 1 0] }, some SolverErr.dimNonpos)) :=
  ⟨(C10_dim_change { n := 3, matrix := some [Complex.mk 1 0] } 3).1 (by norm_num) rfl,
   (C10_dim_change { n := 3, matrix := some [Complex.mk 1 0] } 4).2.1 (by norm_num)
     (by norm_num),
   (C10_dim_change { n := 3, matrix := some [Complex.mk 1 0] } 0).2.2 (by norm_num)⟩

/-- Witness for C4: the first emitted component at n = 1, a = 0 times 10^5
is an integer. -/
theorem C4_five_decimal_rounding_witness :
    (hamiltonianH 1 0 0 0).re ∈ qteOutList 1 0 ∧
    (∃ k : ℤ, (hamiltonianH 1 0 0 0).re * 100000 = (k : ℝ)) :=
  ⟨List.mem_cons_self _ _,
   (C4_five_decimal_rounding 1 0).2 _ (List.mem_cons_self _ _)⟩
